import Mathlib

/-!
Verification development for the zyratv short-video pipeline
(`src/main.py`, `src/video.py`, `src/tts.py`).

The Python sources are shallowly embedded: pure helpers become Lean
functions, the network / filesystem / codec collaborators become explicit
oracle fields of `PipelineEnv`, and floating-point durations become `ℚ`.
-/

namespace ZyraTV

/-- Characters accepted by the Python regex class of `_words`
(video.py line 88), i.e. `[^\W\d_]` (Unicode letters), restricted to the
alphabets this repository processes: ASCII Latin, Devanagari
U+0900..U+097F and Bengali U+0980..U+09FF. -/
def isWordChar (c : Char) : Bool :=
  (65 ≤ c.toNat && c.toNat ≤ 90) || (97 ≤ c.toNat && c.toNat ≤ 122) ||
  (0x0900 ≤ c.toNat && c.toNat ≤ 0x097F) || (0x0980 ≤ c.toNat && c.toNat ≤ 0x09FF)

/-- Maximal runs of characters satisfying `p`: the semantics of
`re.findall` with a single character class, and of Python `str.split()`
when `p` is the negation of whitespace. -/
def splitRuns (p : Char → Bool) : List Char → List (List Char)
  | [] => []
  | [c] => if p c then [[c]] else []
  | c :: d :: cs =>
    if p c then
      match splitRuns p (d :: cs) with
      | [] => [[c]]
      | w :: ws => if p d then (c :: w) :: ws else [c] :: w :: ws
    else splitRuns p (d :: cs)

def intercalateSp : List (List Char) → List Char
  | [] => []
  | [w] => w
  | w :: x :: ws => w ++ ' ' :: intercalateSp (x :: ws)

def notWS (c : Char) : Bool := !c.isWhitespace

/-- Python `" ".join(s.split())` as used by the dedupe loop of
`_auto_queries` (video.py line 151): collapse each whitespace run to one
space and drop leading/trailing whitespace. -/
def normWS (s : String) : String := ⟨intercalateSp (splitRuns notWS s.data)⟩

/-- Python `str.lower()` (ASCII case folding; the Indic scripts used by
the repository are caseless). -/
def pyLower (s : String) : String := ⟨s.data.map Char.toLower⟩

/-- Python `str.upper()`. -/
def pyUpper (s : String) : String := ⟨s.data.map Char.toUpper⟩

/-- Python `str.strip()`. -/
def pyStrip (s : String) : String :=
  ⟨((s.data.dropWhile Char.isWhitespace).reverse.dropWhile Char.isWhitespace).reverse⟩

/-- Embeds `_words` (video.py lines 86-88): unicode-letter runs of the
lowered text. -/
def words (txt : String) : List String :=
  (splitRuns isWordChar (pyLower txt).data).map fun l => ⟨l⟩

/-- The `STOP_EN` stopword set (video.py lines 25-27). -/
def STOP_EN : List String :=
  ["the", "and", "with", "your", "that", "this", "then", "have", "will", "just",
   "like", "very", "from", "into", "you", "for", "are", "was", "were", "been",
   "being", "been", "of", "to", "a", "in", "is", "it", "on", "as", "at", "by",
   "an", "be", "or", "if", "so", "but", "not", "no", "do", "does", "did", "can",
   "could", "should", "would", "may", "might", "our", "their", "his", "her",
   "its", "them", "they", "we", "us", "i", "me"]

/-- The `STOP_HI` stopword set (video.py line 28). -/
def STOP_HI : List String :=
  ["है", "और", "या", "या/या", "कि", "यह", "वह", "तुम", "आप", "हम", "मैं", "हैं",
   "के", "को", "से", "एक", "भी", "तो", "पर", "में", "फिर", "अगर", "क्योंकि",
   "लेकिन", "तथा", "होकर", "जब", "तक", "तब", "बाद", "पहले", "बिना", "जैसे",
   "कुछ", "कोई", "करना", "करना", "है", "की", "के", "लिए", "नहीं"]

/-- The `STOP_BN` stopword set (video.py line 29). -/
def STOP_BN : List String :=
  ["এবং", "বা", "যে", "এই", "ওই", "তুমি", "আপনি", "আমরা", "আমি", "হয়",
   "হয়েছে", "থেকে", "একটি", "কিন্তু", "তাই", "পরে", "আগে", "যদি", "যখন",
   "তবে", "এবং", "করেন", "করা", "করি", "করি", "না", "হবে"]

/-- The `TOPIC_MAP` topic lexicon (video.py lines 32-52). -/
def TOPIC_MAP : List (String × String) :=
  [("गणेश", "ganesha idol temple incense sunrise"),
   ("शिव", "lord shiva temple himalayas incense"),
   ("कृष्ण", "krishna temple flute peacock"),
   ("राम", "ram mandir temple diyas"),
   ("तंत्र", "tantra ritual candles incense night"),
   ("भूत", "haunted house night fog forest"),
   ("नौकरी", "interview office resume corporate"),
   ("रिज्यूमे", "resume office laptop interview"),
   ("ध्यान", "meditation temple candles incense"),
   ("গণেশ", "ganesha idol temple incense"),
   ("শিব", "lord shiva temple himalayas"),
   ("কৃষ্ণ", "krishna temple flute"),
   ("তন্ত্র", "tantra ritual candles night"),
   ("ভূত", "haunted house fog forest night"),
   ("চাকরি", "interview office resume corporate"),
   ("রিজিউমে", "resume office laptop interview"),
   ("ধ্যান", "meditation temple candles")]

/-- The `FAMILY_DEFAULT` channel-family defaults (video.py lines 54-58). -/
def FAMILY_DEFAULT : List (String × String) :=
  [("HM", "hindu temple sunrise incense clouds"),
   ("HT", "night forest fog moonlight candle ritual"),
   ("MJ", "office laptop city skyline night bokeh")]

/-- The `GENERIC_FALLBACKS` list (video.py lines 60-64). -/
def GENERIC_FALLBACKS : List String :=
  ["nature landscape sunrise mist",
   "abstract motion background particles",
   "city bokeh lights night"]

/-- First-occurrence deduplication, i.e. the key order of the Python
`freq` dict of `_top_keywords` (video.py lines 90-96). -/
def uniqKeepOrder : List String → List String → List String
  | _, [] => []
  | seen, w :: rest =>
    if w ∈ seen then uniqKeepOrder seen rest else w :: uniqKeepOrder (w :: seen) rest

def insertStable (le : α → α → Bool) (x : α) : List α → List α
  | [] => [x]
  | y :: ys => if le y x then y :: insertStable le x ys else x :: y :: ys

/-- Stable sort (insertion sort; for a total preorder `le`, a stable sort
is unique, so this agrees with Python's stable `sorted`). -/
def sortStable (le : α → α → Bool) (l : List α) : List α :=
  l.foldl (fun acc x => insertStable le x acc) []

/-- Embeds `_top_keywords` (video.py lines 90-96): keywords ranked by
descending frequency, ties by descending length, remaining ties in
first-occurrence order (Python dict order plus sort stability). -/
def top_keywords (txt : String) (stop : List String) (k : ℕ) : List String :=
  let ws := (words txt).filter fun w => decide (¬ w ∈ stop ∧ 3 ≤ w.length)
  let uniq := uniqKeepOrder [] ws
  let le := fun a b : String =>
    decide (ws.count b < ws.count a ∨ (ws.count b = ws.count a ∧ b.length ≤ a.length))
  (sortStable le uniq).take k

/-- Embeds `_family_code` (video.py lines 98-101). -/
def family_code (channel_code : String) : String :=
  if channel_code = "" then "" else pyUpper ((channel_code.splitOn "-").headD "")

/-- Script metadata (the `meta` dict of the Python sources); `none`
fields model absent keys, and a `none` `Meta` models passing `None`. -/
structure Meta where
  image_query : Option String := none
  channel_code : Option String := none
  lang : Option String := none

/-- Embeds the dedupe loop of `_auto_queries` (video.py lines 148-154):
whitespace-normalise each entry, drop empties and exact duplicates,
keep order. -/
def dedupKeepOrder : List String → List String → List String
  | _, [] => []
  | seen, s :: rest =>
    let s2 := normWS s
    if s2 ≠ "" ∧ ¬ s2 ∈ seen then s2 :: dedupKeepOrder (s2 :: seen) rest
    else dedupKeepOrder seen rest

/-- Embeds the query-list building of `_auto_queries` (video.py lines
112-146), before the final dedupe. -/
def auto_queries_raw (script_text : String) (meta : Option Meta) : List String :=
  let q1 : List String :=
    match meta with
    | some m =>
      match m.image_query with
      | some iq => if iq = "" then [] else [pyStrip iq]
      | none => []
    | none => []
  let chan : String := match meta with | some m => m.channel_code.getD "" | none => ""
  let fam := family_code chan
  let q2 : List String := match FAMILY_DEFAULT.lookup fam with | some v => [v] | none => []
  let q3 := (words script_text).filterMap fun w => TOPIC_MAP.lookup w
  let lang := pyLower (match meta with | some m => m.lang.getD "" | none => "")
  let stop := if lang = "hi" then STOP_HI ++ STOP_EN
              else if lang = "bn" then STOP_BN ++ STOP_EN
              else STOP_EN
  let kws := top_keywords script_text stop 6
  let anchors : List String :=
    if fam = "HM" then ["temple", "incense", "sunrise", "saffron"]
    else if fam = "HT" then ["night", "forest", "fog", "moonlight"]
    else if fam = "MJ" then ["office", "city", "laptop", "skyline"]
    else ["cinematic", "portrait"]
  let q4 : List String :=
    if kws = [] then []
    else (List.range (min 3 kws.length)).map fun i =>
      anchors.getD (i % anchors.length) "" ++ " " ++ kws.getD i ""
  q1 ++ q2 ++ q3 ++ q4 ++ GENERIC_FALLBACKS

/-- Embeds `_auto_queries` (video.py lines 103-154). -/
def auto_queries (script_text : String) (meta : Option Meta) : List String :=
  dedupKeepOrder [] (auto_queries_raw script_text meta)

/-- Maximal character runs of the text, each tagged with whether its
characters satisfy `p`. -/
def chunkRuns (p : Char → Bool) : List Char → List (Bool × List Char)
  | [] => []
  | [c] => [(p c, [c])]
  | c :: d :: cs =>
    match chunkRuns p (d :: cs) with
    | [] => [(p c, [c])]
    | (b, run) :: rest =>
      if p c = b then (b, c :: run) :: rest else (p c, [c]) :: (b, run) :: rest

def splitChunksGo : List Char → List (Bool × List Char) → List (List Char)
  | cur, [] => [cur]
  | cur, (b, run) :: rest =>
    if b && decide (2 ≤ run.count '\n') then cur :: splitChunksGo [] rest
    else splitChunksGo (cur ++ run) rest

/-- Embeds `_paragraphs` (video.py lines 82-84).  A boundary of
`re.split` with pattern backslash-n, whitespace-star, backslash-n is a
whitespace run containing at least two newlines; whatever whitespace the
regex leaves attached to a piece is removed by the per-piece `strip`, so
the boundary here consumes the whole run. -/
def paragraphs (txt : String) : List String :=
  let t := pyStrip txt
  let pieces := splitChunksGo [] (chunkRuns Char.isWhitespace t.data)
  let paras := (pieces.map fun cs => pyStrip ⟨cs⟩).filter fun p => decide (p ≠ "")
  if paras = [] then [pyStrip txt] else paras

/-- Embeds the duration allocation of `make_video` (video.py lines
287-291): proportional to paragraph character length, with
`sum(weights) or 1.0` as the divisor. -/
def allocate (total : ℚ) (paras : List String) (clipCount : ℕ) : List ℚ :=
  let count := min clipCount (max 1 paras.length)
  let weights := (paras.take count).map fun p => (p.length : ℚ)
  let wsum : ℚ := if weights.sum = 0 then 1 else weights.sum
  weights.map fun w => total * (w / wsum)

/-- Embeds the duration clamp of `_safe_loop` (video.py line 76). -/
def safe_loop_duration (d : ℚ) : ℚ := if d ≤ 1/10 then 1/10 else d

structure VFile where
  width : ℕ
  height : ℕ
  link : String

structure Video where
  video_files : List VFile

/-- Observable result of `_pexels_search` (video.py lines 158-177): a
missing API key, a timeout, a non-JSON body or a raised exception all
surface as `ok = false`, never as an exception. -/
structure SearchResp where
  ok : Bool
  status : ℤ
  videos : List Video

/-- File eligibility test of `_pick_vertical_urls` (video.py line 191). -/
def eligibleFile (f : VFile) : Bool :=
  !(f.link == "") && decide (f.width ≤ f.height) && f.link.startsWith "http"

/-- Sort key of `_pick_vertical_urls` (video.py lines 182-186):
descending `(height, width)`, stable. -/
def fileLe (a b : VFile) : Bool :=
  decide (b.height < a.height ∨ (b.height = a.height ∧ b.width ≤ a.width))

/-- Embeds the video loop of `_pick_vertical_urls` (video.py lines
179-196): per result, the first eligible file of the sorted encodings. -/
def pick_vertical_urls_go (need : ℕ) : List String → List Video → List String
  | urls, [] => urls
  | urls, v :: vs =>
    let urls' := match (sortStable fileLe v.video_files).find? eligibleFile with
      | some f => urls ++ [f.link]
      | none => urls
    if need ≤ urls'.length then urls' else pick_vertical_urls_go need urls' vs

def pick_vertical_urls (videos : List Video) (need : ℕ) : List String :=
  pick_vertical_urls_go need [] videos

/-- Embeds the query loops of `_pexels_pick_multi` (video.py lines
203-215 and 218-226): a non-ok response skips the query. -/
def pick_multi_go (search : String → ℕ → SearchResp) (perPage need : ℕ) :
    List String → List String → List String
  | collected, [] => collected
  | collected, q :: qs =>
    let resp := search q perPage
    if resp.ok then
      let c' := collected ++ pick_vertical_urls resp.videos (need - collected.length)
      if need ≤ c'.length then c' else pick_multi_go search perPage need c' qs
    else pick_multi_go search perPage need collected qs

/-- Embeds `_pexels_pick_multi` (video.py lines 198-228). -/
def pexels_pick_multi (search : String → ℕ → SearchResp) (queries : List String)
    (need : ℕ) : List String :=
  let collected := pick_multi_go search (max (need * 4) 12) need [] queries
  if collected.length < need then
    pick_multi_go search (max (need * 3) 9) need collected
      ["nature portrait", "city lights portrait"]
  else collected

/-- External collaborators of `make_video` and `run_pipeline`: the file
system, the decoded narration duration, the Pexels search API, the
combined download-and-open outcome per clip URL (video.py lines 268-279),
and the `SEGMENTS` environment variable. -/
structure PipelineEnv where
  audioExists : String → Bool
  audioDuration : String → ℚ
  search : String → ℕ → SearchResp
  retrieve : String → Bool
  segments : ℤ

/-- A background clip handle: a downloaded real clip, or the synthetic
dark `ColorClip` fallback (video.py lines 281-284). -/
inductive Clip where
  | real (url : String)
  | color

deriving instance DecidableEq for Clip

structure MakeVideoOut where
  queries : List String
  urls : List String
  clips : List Clip
  paras : List String
  segDurs : List ℚ
  composedDurs : List ℚ

/-- Pure payload of a successful `make_video` run (video.py lines
258-308): `composedDurs` are the segment durations after `_safe_loop`;
a returned value models a successfully rendered output file, the write
itself being the external encoder's job. -/
def mvOut (env : PipelineEnv) (audio_path script_text : String) (meta : Option Meta) :
    MakeVideoOut :=
  let total : ℚ := max (1/10) (env.audioDuration audio_path)
  let queries := auto_queries script_text meta
  let need : ℕ := (max 1 env.segments).toNat
  let urls := pexels_pick_multi env.search queries need
  let retrieved := urls.filter env.retrieve
  let clips : List Clip := if retrieved = [] then [.color] else retrieved.map .real
  let paras := paragraphs script_text
  let segDurs := allocate total paras clips.length
  { queries := queries, urls := urls, clips := clips, paras := paras,
    segDurs := segDurs, composedDurs := segDurs.map safe_loop_duration }

/-- Embeds `make_video` (video.py lines 254-333): the existence check of
the narration audio comes first and raises `FileNotFoundError`. -/
def make_video (env : PipelineEnv) (audio_path script_text : String)
    (meta : Option Meta) : Except String MakeVideoOut :=
  if env.audioExists audio_path then .ok (mvOut env audio_path script_text meta)
  else .error ("Audio not found: " ++ audio_path)

/-- A discovered script after `parse_script` and `safe_id` (main.py
lines 56-59). -/
structure ScriptData where
  id : String
  body : String

inductive Outcome where
  | skippedEmpty
  | skippedDone
  | produced (r : MakeVideoOut)
  | failed (msg : String)

def audioPathOf (id : String) : String := "output/audio/" ++ id ++ ".mp3"

/-- Embeds one iteration of the `run_pipeline` loop (main.py lines
56-74); TTS is an external collaborator, and `make_video` is called
without the metadata argument, exactly as on main.py line 70; its
`except` clause turns any exception into a reported failure. -/
def outcomeOf (env : PipelineEnv) (done : String → Bool) (s : ScriptData) : Outcome :=
  if s.body = "" then .skippedEmpty
  else if done s.id then .skippedDone
  else match make_video env (audioPathOf s.id) s.body none with
    | .ok r => .produced r
    | .error e => .failed e

/-- Embeds the batch loop of `run_pipeline` (main.py lines 56-77): the
limit check sits at the bottom of the loop body and is bypassed by the
two `continue` branches. -/
def runPipelineGo (env : PipelineEnv) (done : String → Bool) (limit : ℕ) :
    ℕ → List ScriptData → List Outcome
  | _, [] => []
  | produced, s :: rest =>
    match outcomeOf env done s with
    | .skippedEmpty => .skippedEmpty :: runPipelineGo env done limit produced rest
    | .skippedDone => .skippedDone :: runPipelineGo env done limit produced rest
    | .produced r =>
      .produced r ::
        (if limit ≠ 0 ∧ limit ≤ produced + 1 then []
         else runPipelineGo env done limit (produced + 1) rest)
    | .failed e =>
      .failed e ::
        (if limit ≠ 0 ∧ limit ≤ produced then []
         else runPipelineGo env done limit produced rest)

/-- Embeds `run_pipeline` (main.py lines 50-78). -/
def run_pipeline (env : PipelineEnv) (done : String → Bool) (limit : ℕ)
    (scripts : List ScriptData) : List Outcome :=
  runPipelineGo env done limit 0 scripts

structure Caption where
  start : ℚ
  stop : ℚ
  text : String

def build_captions_go (t : ℚ) : List (String × ℚ) → List Caption
  | [] => []
  | (p, d) :: rest =>
    let e := t + max d (1/2)
    { start := t, stop := e, text := p } :: build_captions_go e rest

/-- Modelled from the spec: `build_captions` is absent from `src/` (the
caption burn-in is delegated to an external workflow, video.py line 6),
so this follows section 4.5 of the specification: entries are
consecutive, each entry's end is the previous end plus
`max(segment duration, 0.5)`; the fixed-column word-wrapping of the text
is presentational and the text is kept as the raw paragraph here. -/
def build_captions (paras : List String) (segDurs : List ℚ) : List Caption :=
  build_captions_go 0 (paras.zip segDurs)

/-- Running partial sums, used to state the caption timestamp law. -/
def cumSums (acc : ℚ) : List ℚ → List ℚ
  | [] => []
  | d :: ds => (acc + d) :: cumSums (acc + d) ds

/-- Concrete environment for witnesses: audio always present, search API
always failing, downloads failing, default segment count. -/
def envOffline : PipelineEnv where
  audioExists := fun _ => true
  audioDuration := fun _ => 30
  search := fun _ _ => { ok := false, status := 0, videos := [] }
  retrieve := fun _ => false
  segments := 3

/-- Concrete environment for witnesses: the narration audio is missing. -/
def envNoAudio : PipelineEnv where
  audioExists := fun _ => false
  audioDuration := fun _ => 30
  search := fun _ _ => { ok := false, status := 0, videos := [] }
  retrieve := fun _ => false
  segments := 3

/-! Helper lemmas about the character-run splitter. -/

lemma splitRuns_cons_not (p : Char → Bool) (x : Char) (l : List Char) (hx : p x = false) :
    splitRuns p (x :: l) = splitRuns p l := by
  cases l with
  | nil => simp [splitRuns, hx]
  | cons d cs => rw [splitRuns, if_neg (by simp [hx])]

lemma splitRuns_nil_of_none (p : Char → Bool) :
    ∀ l : List Char, (∀ c ∈ l, p c = false) → splitRuns p l = [] := by
  intro l
  induction l with
  | nil => intro _; rfl
  | cons x xs ih =>
    intro h
    rw [splitRuns_cons_not p x xs (h x (by simp))]
    exact ih fun c hc => h c (by simp [hc])

lemma mem_splitRuns (p : Char → Bool) :
    ∀ (l : List Char), ∀ w ∈ splitRuns p l, w ≠ [] ∧ ∀ c ∈ w, p c = true := by
  intro l
  induction l with
  | nil => intro w h; simp [splitRuns] at h
  | cons c tail ih =>
    intro w h
    cases tail with
    | nil =>
      by_cases hc : p c
      · simp only [splitRuns, if_pos hc, List.mem_singleton] at h
        subst h
        exact ⟨by simp, by intro x hx; rcases List.mem_singleton.1 hx with rfl; exact hc⟩
      · simp [splitRuns, hc] at h
    | cons d cs =>
      rw [splitRuns] at h
      by_cases hc : p c
      · rw [if_pos hc] at h
        rcases hr : splitRuns p (d :: cs) with _ | ⟨w0, ws⟩
        · rw [hr] at h
          simp only [List.mem_singleton] at h
          subst h
          exact ⟨by simp, by intro x hx; rcases List.mem_singleton.1 hx with rfl; exact hc⟩
        · rw [hr] at h
          have h' : w ∈ (if p d = true then (c :: w0) :: ws else [c] :: w0 :: ws) := h
          by_cases hd : p d
          · rw [if_pos hd] at h'
            rcases List.mem_cons.1 h' with rfl | h1
            · have h0 := ih w0 (by rw [hr]; exact List.mem_cons_self w0 ws)
              refine ⟨by simp, ?_⟩
              intro x hx
              rcases List.mem_cons.1 hx with rfl | hx
              · exact hc
              · exact h0.2 x hx
            · exact ih w (by rw [hr]; exact List.mem_cons_of_mem w0 h1)
          · rw [if_neg hd] at h'
            rcases List.mem_cons.1 h' with rfl | h1
            · exact ⟨by simp, by intro x hx; rcases List.mem_singleton.1 hx with rfl; exact hc⟩
            · exact ih w (by rw [hr]; exact h1)
      · rw [if_neg hc] at h
        exact ih w h

lemma splitRuns_single (p : Char → Bool) :
    ∀ w : List Char, w ≠ [] → (∀ c ∈ w, p c = true) → splitRuns p w = [w] := by
  intro w
  induction w with
  | nil => intro h; exact absurd rfl h
  | cons c cs ih =>
    intro _ hall
    have hc : p c = true := hall c (by simp)
    cases cs with
    | nil => simp [splitRuns, hc]
    | cons d ds =>
      have hd : p d = true := hall d (by simp)
      rw [splitRuns, if_pos hc, ih (by simp) fun x hx => hall x (by simp [hx])]
      simp [hd]

lemma splitRuns_word_append (p : Char → Bool) :
    ∀ (w : List Char) (x : Char) (rest : List Char), w ≠ [] → (∀ c ∈ w, p c = true) →
      p x = false → splitRuns p (w ++ x :: rest) = w :: splitRuns p rest := by
  intro w
  induction w with
  | nil => intro x rest h; exact absurd rfl h
  | cons a as ih =>
    intro x rest _ hall hx
    have ha : p a = true := hall a (by simp)
    cases as with
    | nil =>
      have h1 : splitRuns p (x :: rest) = splitRuns p rest := splitRuns_cons_not p x rest hx
      rcases hr : splitRuns p rest with _ | ⟨w0, ws⟩
      · simp [splitRuns, ha, hx, h1, hr]
      · simp [splitRuns, ha, hx, h1, hr]
    | cons b bs =>
      have hb : p b = true := hall b (by simp)
      have key := ih x rest (by simp) (fun c hc => hall c (by simp [hc])) hx
      simp only [List.cons_append] at key ⊢
      rw [splitRuns, if_pos ha, key]
      simp [hb]

lemma splitRuns_append_ws (p : Char → Bool) :
    ∀ (l t : List Char), (∀ c ∈ t, p c = false) → splitRuns p (l ++ t) = splitRuns p l := by
  intro l
  induction l with
  | nil => intro t ht; exact splitRuns_nil_of_none p t ht
  | cons a as ih =>
    intro t ht
    cases as with
    | nil =>
      cases ht2 : t with
      | nil => simp
      | cons x xs =>
        have hx : p x = false := ht x (by simp [ht2])
        have hxs : splitRuns p (x :: xs) = [] := by
          apply splitRuns_nil_of_none
          intro c hc
          exact ht c (by simp [ht2, hc])
        have hxs2 : splitRuns p xs = [] :=
          splitRuns_nil_of_none p xs fun c hc => ht c (by simp [ht2, hc])
        by_cases ha : p a
        · rw [splitRuns_word_append p [a] x xs (by simp) (by simp [ha]) hx, hxs2]
          simp [splitRuns, ha]
        · rw [List.singleton_append, splitRuns_cons_not p a (x :: xs) (by simpa using ha), hxs]
          simp [splitRuns, ha]
    | cons b bs =>
      have key : splitRuns p (b :: bs ++ t) = splitRuns p (b :: bs) := ih t ht
      simp only [List.cons_append] at key ⊢
      rw [splitRuns, key, splitRuns]

lemma splitRuns_dropWhile (p q : Char → Bool) (hpq : ∀ c, q c = true → p c = false) :
    ∀ l : List Char, splitRuns p (l.dropWhile q) = splitRuns p l := by
  intro l
  induction l with
  | nil => rfl
  | cons a as ih =>
    by_cases ha : q a
    · rw [List.dropWhile_cons_of_pos ha, ih, splitRuns_cons_not p a as (hpq a ha)]
    · rw [List.dropWhile_cons_of_neg (by simp [ha])]

lemma splitRuns_intercalateSp (p : Char → Bool) (hsp : p ' ' = false) :
    ∀ ws : List (List Char), (∀ w ∈ ws, w ≠ [] ∧ ∀ c ∈ w, p c = true) →
      splitRuns p (intercalateSp ws) = ws := by
  intro ws
  induction ws with
  | nil => intro _; rfl
  | cons w ws ih =>
    intro h
    cases ws with
    | nil => exact splitRuns_single p w (h w (by simp)).1 (h w (by simp)).2
    | cons w2 ws2 =>
      rw [intercalateSp,
        splitRuns_word_append p w ' ' _ (h w (by simp)).1 (h w (by simp)).2 hsp,
        ih fun v hv => h v (by simp [hv])]

/-! Helper lemmas about whitespace normalisation. -/

lemma isWordChar_notWS {c : Char} (h : isWordChar c = true) : notWS c = true := by
  unfold notWS
  suffices hw : c.isWhitespace = false by simp [hw]
  cases hcc : c.isWhitespace
  · rfl
  · exfalso
    have : ((c = ' ' ∨ c = '\t') ∨ c = '\r') ∨ c = '\n' := by
      simpa [Char.isWhitespace] using hcc
    rcases this with ((rfl | rfl) | rfl) | rfl <;> exact absurd h (by decide)

lemma normWS_idem (s : String) : normWS (normWS s) = normWS s := by
  unfold normWS
  rw [show (String.mk (intercalateSp (splitRuns notWS s.data))).data
        = intercalateSp (splitRuns notWS s.data) from rfl,
    splitRuns_intercalateSp notWS (by decide) _ (mem_splitRuns notWS s.data)]

lemma normWS_pyStrip (s : String) : normWS (pyStrip s) = normWS s := by
  have hpq : ∀ c : Char, c.isWhitespace = true → notWS c = false := by
    intro c hc; simp [notWS, hc]
  unfold normWS pyStrip
  congr 1
  set l1 := s.data.dropWhile Char.isWhitespace with hl1
  have hsplit : l1.reverse = l1.reverse.takeWhile Char.isWhitespace ++
      l1.reverse.dropWhile Char.isWhitespace := (List.takeWhile_append_dropWhile ..).symm
  have hdecomp : l1 = (l1.reverse.dropWhile Char.isWhitespace).reverse ++
      (l1.reverse.takeWhile Char.isWhitespace).reverse := by
    conv_lhs => rw [← List.reverse_reverse l1]
    rw [← List.reverse_append, ← hsplit]
  have h1 : splitRuns notWS ((l1.reverse.dropWhile Char.isWhitespace).reverse) =
      splitRuns notWS l1 := by
    conv_rhs => rw [hdecomp]
    rw [splitRuns_append_ws]
    intro c hc
    have hc2 : c ∈ l1.reverse.takeWhile Char.isWhitespace := List.mem_reverse.1 hc
    exact hpq c (List.mem_takeWhile_imp hc2)
  rw [show ((s.data.dropWhile Char.isWhitespace).reverse.dropWhile Char.isWhitespace).reverse
        = (l1.reverse.dropWhile Char.isWhitespace).reverse from rfl, h1, hl1,
    splitRuns_dropWhile notWS Char.isWhitespace hpq]

lemma normWS_word_pair (a k : String) (ha1 : a.data ≠ []) (ha2 : ∀ c ∈ a.data, notWS c = true)
    (hk1 : k.data ≠ []) (hk2 : ∀ c ∈ k.data, notWS c = true) :
    normWS (a ++ " " ++ k) = a ++ " " ++ k := by
  have hdata : (a ++ " " ++ k).data = a.data ++ ' ' :: k.data := by
    rw [String.data_append, String.data_append]
    simp
  unfold normWS
  rw [hdata, splitRuns_word_append notWS a.data ' ' k.data ha1 ha2 (by decide),
    splitRuns_single notWS k.data hk1 hk2]
  rw [show intercalateSp [a.data, k.data] = a.data ++ ' ' :: k.data from rfl, ← hdata]

lemma append_word_ne (a k f : String) (c c' : Char)
    (hca : a.data.head? = some c) (hcf : f.data.head? = some c') (hne : c ≠ c') :
    a ++ " " ++ k ≠ f := by
  intro he
  have hd := congrArg String.data he
  rw [String.data_append, String.data_append] at hd
  cases ha : a.data with
  | nil => rw [ha] at hca; exact absurd hca (by simp)
  | cons a0 arest =>
    rw [ha] at hca hd
    cases hf : f.data with
    | nil => rw [hf] at hcf; exact absurd hcf (by simp)
    | cons f0 frest =>
      rw [hf] at hcf hd
      simp only [List.head?_cons, Option.some.injEq] at hca hcf
      simp only [List.cons_append] at hd
      have h0 : a0 = f0 := (List.cons_eq_cons.1 hd).1
      exact hne (hca ▸ hcf ▸ h0 ▸ rfl)

/-! Helper lemmas about the dedupe loop, first-occurrence dedup, the
stable sort and association lookup. -/

lemma mem_dedupKeepOrder :
    ∀ (l seen : List String), ∀ e ∈ dedupKeepOrder seen l,
      (∃ s ∈ l, e = normWS s) ∧ e ≠ "" ∧ ¬ e ∈ seen := by
  intro l
  induction l with
  | nil => intro seen e h; simp [dedupKeepOrder] at h
  | cons s rest ih =>
    intro seen e h
    simp only [dedupKeepOrder] at h
    by_cases hc : normWS s ≠ "" ∧ ¬ normWS s ∈ seen
    · rw [if_pos hc] at h
      rcases List.mem_cons.1 h with rfl | h1
      · exact ⟨⟨s, by simp, rfl⟩, hc.1, hc.2⟩
      · obtain ⟨⟨s', hs', he⟩, hne, hnotin⟩ := ih (normWS s :: seen) e h1
        exact ⟨⟨s', by simp [hs'], he⟩, hne, fun hm => hnotin (by simp [hm])⟩
    · rw [if_neg hc] at h
      obtain ⟨⟨s', hs', he⟩, hne, hnotin⟩ := ih seen e h
      exact ⟨⟨s', by simp [hs'], he⟩, hne, hnotin⟩

lemma nodup_dedupKeepOrder : ∀ (l seen : List String), (dedupKeepOrder seen l).Nodup := by
  intro l
  induction l with
  | nil => intro seen; simp [dedupKeepOrder]
  | cons s rest ih =>
    intro seen
    simp only [dedupKeepOrder]
    by_cases hc : normWS s ≠ "" ∧ ¬ normWS s ∈ seen
    · rw [if_pos hc]
      refine List.nodup_cons.2 ⟨?_, ih (normWS s :: seen)⟩
      intro hmem
      have := (mem_dedupKeepOrder rest (normWS s :: seen) _ hmem).2.2
      exact this (by simp)
    · rw [if_neg hc]; exact ih seen

lemma dedupKeepOrder_ne_nil :
    ∀ (l seen : List String) (s : String), s ∈ l → normWS s ≠ "" → ¬ normWS s ∈ seen →
      dedupKeepOrder seen l ≠ [] := by
  intro l
  induction l with
  | nil => intro seen s h; simp at h
  | cons s0 rest ih =>
    intro seen s hmem hne hnotin
    simp only [dedupKeepOrder]
    by_cases hc : normWS s0 ≠ "" ∧ ¬ normWS s0 ∈ seen
    · rw [if_pos hc]; simp
    · rw [if_neg hc]
      rcases List.mem_cons.1 hmem with rfl | h1
      · exact absurd ⟨hne, hnotin⟩ hc
      · exact ih seen s h1 hne hnotin

lemma mem_uniqKeepOrder : ∀ (l seen : List String), ∀ y ∈ uniqKeepOrder seen l, y ∈ l := by
  intro l
  induction l with
  | nil => intro seen y h; simp [uniqKeepOrder] at h
  | cons w rest ih =>
    intro seen y h
    simp only [uniqKeepOrder] at h
    by_cases hw : w ∈ seen
    · rw [if_pos hw] at h
      exact List.mem_cons_of_mem w (ih seen y h)
    · rw [if_neg hw] at h
      rcases List.mem_cons.1 h with rfl | h1
      · exact List.mem_cons_self y rest
      · exact List.mem_cons_of_mem w (ih (w :: seen) y h1)

lemma mem_insertStable {le : α → α → Bool} {x : α} :
    ∀ {l : List α} {y : α}, y ∈ insertStable le x l → y = x ∨ y ∈ l := by
  intro l
  induction l with
  | nil => intro y h; simp [insertStable] at h; exact Or.inl h
  | cons z zs ih =>
    intro y h
    simp only [insertStable] at h
    by_cases hz : le z x
    · rw [if_pos hz] at h
      rcases List.mem_cons.1 h with rfl | h1
      · exact Or.inr (by simp)
      · rcases ih h1 with h2 | h2
        · exact Or.inl h2
        · exact Or.inr (by simp [h2])
    · rw [if_neg hz] at h
      rcases List.mem_cons.1 h with rfl | h1
      · exact Or.inl rfl
      · exact Or.inr h1

lemma mem_sortStable {le : α → α → Bool} :
    ∀ {l : List α} {y : α}, y ∈ sortStable le l → y ∈ l := by
  suffices h : ∀ (l acc : List α) (y : α),
      y ∈ l.foldl (fun acc x => insertStable le x acc) acc → y ∈ acc ∨ y ∈ l by
    intro l y hy
    rcases h l [] y hy with h1 | h1
    · simp at h1
    · exact h1
  intro l
  induction l with
  | nil => intro acc y hy; exact Or.inl hy
  | cons x xs ih =>
    intro acc y hy
    rcases ih (insertStable le x acc) y hy with h1 | h1
    · rcases mem_insertStable h1 with rfl | h2
      · exact Or.inr (by simp)
      · exact Or.inl h2
    · exact Or.inr (by simp [h1])

lemma lookup_mem {β : Type} :
    ∀ (l : List (String × β)) (a : String) (b : β), l.lookup a = some b → (a, b) ∈ l := by
  intro l a b
  induction l with
  | nil => intro h; simp [List.lookup] at h
  | cons kv rest ih =>
    intro h
    obtain ⟨k, v⟩ := kv
    by_cases hak : a = k
    · subst hak
      simp only [List.lookup, beq_self_eq_true] at h
      have hb : v = b := by simpa using h
      subst hb
      simp
    · have hbeq : (a == k) = false := beq_eq_false_iff_ne.2 hak
      simp only [List.lookup, hbeq] at h
      exact List.mem_cons_of_mem _ (ih h)

/-! Helper lemmas connecting keywords to letter runs of the script. -/

lemma words_spec (txt : String) :
    ∀ w ∈ words txt, w.data ≠ [] ∧ ∀ c ∈ w.data, isWordChar c = true := by
  intro w hw
  obtain ⟨run, hrun, rfl⟩ := List.mem_map.1 hw
  exact mem_splitRuns isWordChar _ run hrun

lemma mem_top_keywords (txt : String) (stop : List String) (k : ℕ) :
    ∀ w ∈ top_keywords txt stop k, w ∈ words txt := by
  intro w hw
  unfold top_keywords at hw
  have h1 := List.mem_of_mem_take hw
  have h2 := mem_sortStable h1
  have h3 := mem_uniqKeepOrder _ _ _ h2
  exact List.mem_of_mem_filter h3

/-- The three channel-family default phrases. -/
def familyPhrases : List String := FAMILY_DEFAULT.map Prod.snd

/-- With `meta = None` (as `run_pipeline` calls `make_video`), the
override and family-default entries vanish and the anchor list is the
generic one. -/
lemma auto_queries_none (body : String) :
    auto_queries body none =
      dedupKeepOrder []
        ((((words body).filterMap fun w => TOPIC_MAP.lookup w) ++
          (if top_keywords body STOP_EN 6 = [] then []
           else (List.range (min 3 (top_keywords body STOP_EN 6).length)).map fun i =>
             (["cinematic", "portrait"] : List String).getD (i % 2) "" ++ " " ++
               (top_keywords body STOP_EN 6).getD i "")) ++ GENERIC_FALLBACKS) := rfl

lemma getD_mem {α : Type} (d : α) : ∀ (l : List α) (i : ℕ), i < l.length → l.getD i d ∈ l := by
  intro l
  induction l with
  | nil => intro i h; simp at h
  | cons x xs ih =>
    intro i h
    cases i with
    | zero => simp
    | succ n =>
      simp only [List.getD_cons_succ]
      exact List.mem_cons_of_mem x (ih n (by simpa using h))

lemma familyPhrase_not_mem_auto_queries_none (body : String) :
    ∀ f ∈ familyPhrases, ¬ f ∈ auto_queries body none := by
  intro f hf hmem
  rw [auto_queries_none] at hmem
  obtain ⟨⟨s, hs, rfl⟩, hne, -⟩ := mem_dedupKeepOrder _ [] _ hmem
  rcases List.mem_append.1 hs with hs1 | hs3
  · rcases List.mem_append.1 hs1 with hs1 | hs2
    · obtain ⟨w, hw, hlook⟩ := List.mem_filterMap.1 hs1
      have hpair := lookup_mem _ _ _ hlook
      have hsnd : s ∈ TOPIC_MAP.map Prod.snd := List.mem_map.2 ⟨(w, s), hpair, rfl⟩
      have hchk : ∀ v ∈ TOPIC_MAP.map Prod.snd, ∀ f0 ∈ familyPhrases, normWS v ≠ f0 := by
        decide
      exact hchk s hsnd _ hf rfl
    · by_cases hk : top_keywords body STOP_EN 6 = []
      · rw [if_pos hk] at hs2; simp at hs2
      · rw [if_neg hk] at hs2
        obtain ⟨i, hi, rfl⟩ := List.mem_map.1 hs2
        have hilt : i < (top_keywords body STOP_EN 6).length := by
          have := List.mem_range.1 hi; omega
        have hkmem : (top_keywords body STOP_EN 6).getD i "" ∈ words body :=
          mem_top_keywords body STOP_EN 6 _ (getD_mem "" _ i hilt)
        have hkspec := words_spec body _ hkmem
        have hknws : ∀ c ∈ ((top_keywords body STOP_EN 6).getD i "").data, notWS c = true :=
          fun c hc => isWordChar_notWS (hkspec.2 c hc)
        rcases Nat.mod_two_eq_zero_or_one i with hm | hm
        · have ha : (["cinematic", "portrait"] : List String).getD (i % 2) "" = "cinematic" := by
            rw [hm]; rfl
          rw [ha, normWS_word_pair "cinematic" _ (by decide) (by decide) hkspec.1 hknws] at hf
          have hlist : familyPhrases = ["hindu temple sunrise incense clouds",
            "night forest fog moonlight candle ritual",
            "office laptop city skyline night bokeh"] := rfl
          rw [hlist] at hf
          simp only [List.mem_cons, List.not_mem_nil, or_false] at hf
          rcases hf with hf | hf | hf
          · exact append_word_ne "cinematic" _ "hindu temple sunrise incense clouds"
              'c' 'h' (by decide) (by decide) (by decide) hf
          · exact append_word_ne "cinematic" _ "night forest fog moonlight candle ritual"
              'c' 'n' (by decide) (by decide) (by decide) hf
          · exact append_word_ne "cinematic" _ "office laptop city skyline night bokeh"
              'c' 'o' (by decide) (by decide) (by decide) hf
        · have ha : (["cinematic", "portrait"] : List String).getD (i % 2) "" = "portrait" := by
            rw [hm]; rfl
          rw [ha, normWS_word_pair "portrait" _ (by decide) (by decide) hkspec.1 hknws] at hf
          have hlist : familyPhrases = ["hindu temple sunrise incense clouds",
            "night forest fog moonlight candle ritual",
            "office laptop city skyline night bokeh"] := rfl
          rw [hlist] at hf
          simp only [List.mem_cons, List.not_mem_nil, or_false] at hf
          rcases hf with hf | hf | hf
          · exact append_word_ne "portrait" _ "hindu temple sunrise incense clouds"
              'p' 'h' (by decide) (by decide) (by decide) hf
          · exact append_word_ne "portrait" _ "night forest fog moonlight candle ritual"
              'p' 'n' (by decide) (by decide) (by decide) hf
          · exact append_word_ne "portrait" _ "office laptop city skyline night bokeh"
              'p' 'o' (by decide) (by decide) (by decide) hf
  · have hchk2 : ∀ g ∈ GENERIC_FALLBACKS, ∀ f0 ∈ familyPhrases, normWS g ≠ f0 := by decide
    exact hchk2 s hs3 _ hf rfl

/-! Claim theorems. -/

/-- Claim C3 (amended): for every script text, metadata and override
input, the Query Deriver output has no two entries equal ignoring
whitespace (the source dedupe normalises whitespace but is
case-sensitive), contains only non-empty entries, and is non-empty even
for empty script text with no channel code or override. -/
theorem C3_queries_dedup_nonempty (t : String) (m : Option Meta) :
    (auto_queries t m).Pairwise (fun a b => normWS a ≠ normWS b) ∧
    (∀ e ∈ auto_queries t m, e ≠ "") ∧ auto_queries t m ≠ [] := by
  have hmemlem := mem_dedupKeepOrder (auto_queries_raw t m) []
  refine ⟨?_, ?_, ?_⟩
  · have hnd : (auto_queries t m).Nodup := nodup_dedupKeepOrder _ _
    have hfix : ∀ e ∈ auto_queries t m, normWS e = e := by
      intro e he
      obtain ⟨⟨s, -, rfl⟩, -, -⟩ := hmemlem e he
      exact normWS_idem s
    refine hnd.imp_of_mem ?_
    intro a b ha hb hne heq
    exact hne (by rw [← hfix a ha, ← hfix b hb, heq])
  · intro e he
    exact (hmemlem e he).2.1
  · exact dedupKeepOrder_ne_nil _ [] "nature landscape sunrise mist"
      (by simp [auto_queries_raw, GENERIC_FALLBACKS]) (by decide) (by simp)

/-- Claim C3 witness: the guarantees instantiated at empty script text
and no metadata. -/
theorem C3_witness : "nature landscape sunrise mist" ≠ "" ∧ auto_queries "" none ≠ [] :=
  ⟨(C3_queries_dedup_nonempty "" none).2.1 "nature landscape sunrise mist" (by decide),
   (C3_queries_dedup_nonempty "" none).2.2⟩

/-- Claim C3 counterexample: with an explicit override differing only in
letter case from a generic fallback phrase, the output contains two
entries that are equal ignoring case and whitespace — the source dedupe
(video.py lines 149-153) never lowercases. -/
theorem C3_counterexample :
    ¬ (auto_queries "" (some { image_query := some "NATURE LANDSCAPE SUNRISE MIST" })).Pairwise
        (fun a b => normWS (pyLower a) ≠ normWS (pyLower b)) := by decide

/-- Claim C8 (amended): an explicit `image_query` whose
whitespace-normalisation is non-empty appears, whitespace-normalised, as
the first Query Deriver output, regardless of channel code and body. -/
theorem C8_override_first (body : String) (m : Meta) (iq : String)
    (h1 : m.image_query = some iq) (h2 : iq ≠ "") (h3 : normWS iq ≠ "") :
    (auto_queries body (some m)).head? = some (normWS iq) := by
  have hstrip : normWS (pyStrip iq) = normWS iq := normWS_pyStrip iq
  simp only [auto_queries, auto_queries_raw, h1, if_neg h2]
  simp only [List.cons_append, List.nil_append, List.singleton_append]
  rw [dedupKeepOrder]
  rw [if_pos ?side]
  case side => exact ⟨by rw [hstrip]; exact h3, by simp⟩
  simp [hstrip]

/-- Claim C8 witness: `"desert dunes"` leads the output for a script with
a channel code and non-trivial body. -/
theorem C8_witness :
    (auto_queries "night city story"
      (some { image_query := some "desert dunes", channel_code := some "HM-EN" })).head? =
      some (normWS "desert dunes") :=
  C8_override_first "night city story"
    { image_query := some "desert dunes", channel_code := some "HM-EN" }
    "desert dunes" rfl (by decide) (by decide)

/-- Claim C8 counterexample: the override `" "` is a non-empty string,
yet neither it nor its whitespace-normalisation (the empty string) is the
first output entry — the stripped override is dropped by the dedupe's
emptiness filter. -/
theorem C8_counterexample :
    " " ≠ "" ∧
    (auto_queries "" (some { image_query := some " " })).head? ≠ some (normWS " ") ∧
    (auto_queries "" (some { image_query := some " " })).head? ≠ some " " := by
  refine ⟨by decide, by decide, by decide⟩

/-- Claim C4: `run_pipeline` calls `make_video` without the metadata
argument (main.py line 70), so the derived query list is exactly
`_auto_queries(body, None)` — a function of the body text alone — and
contains no channel-family default phrase (and no override, since none
exists). -/
theorem C4_pipeline_queries_meta_none (env : PipelineEnv) (p body : String) :
    (mvOut env p body none).queries = auto_queries body none ∧
    ∀ f ∈ familyPhrases, ¬ f ∈ (mvOut env p body none).queries := by
  refine ⟨rfl, ?_⟩
  intro f hf
  exact familyPhrase_not_mem_auto_queries_none body f hf

/-- Claim C4 witness: the HM family phrase is absent from the query list
derived for a concrete script processed by the batch loop. -/
theorem C4_witness :
    ¬ "hindu temple sunrise incense clouds" ∈
      (mvOut envOffline "output/audio/s1.mp3" "a spooky night story" none).queries :=
  (C4_pipeline_queries_meta_none envOffline "output/audio/s1.mp3" "a spooky night story").2
    "hindu temple sunrise incense clouds" (by decide)

lemma length_pos_of_ne_empty {p : String} (h : p ≠ "") : 0 < p.length := by
  rcases p with ⟨data⟩
  cases data with
  | nil => exact absurd rfl h
  | cons c cs => simp [String.length]

lemma sum_map_alloc (total W : ℚ) :
    ∀ l : List String, (l.map fun p => total * ((p.length : ℚ) / W)).sum
      = total * ((l.map fun p => (p.length : ℚ)).sum / W) := by
  intro l
  induction l with
  | nil => simp
  | cons x xs ih =>
    simp only [List.map_cons, List.sum_cons, ih]
    ring

/-- Claim C1: for positive narration duration and a script whose clip
count and non-empty paragraph count both equal `n ≥ 1`, the allocator
returns the exact proportional durations `total * len_i / sum(len)`,
which sum to the total exactly (no clamping occurs inside allocation). -/
theorem C1_allocator_proportional (total : ℚ) (t : String) (n : ℕ)
    (hpos : 0 < total) (hlen : (paragraphs t).length = n) (hn : 1 ≤ n)
    (hne : ∀ p ∈ paragraphs t, p ≠ "") :
    allocate total (paragraphs t) n =
      (paragraphs t).map (fun p => total * (p.length : ℚ) /
        ((paragraphs t).map fun q => (q.length : ℚ)).sum) ∧
    (allocate total (paragraphs t) n).sum = total := by
  have hWpos : (0:ℚ) < ((paragraphs t).map fun q => (q.length : ℚ)).sum := by
    apply List.sum_pos
    · intro x hx
      obtain ⟨p, hp, rfl⟩ := List.mem_map.1 hx
      exact_mod_cast length_pos_of_ne_empty (hne p hp)
    · intro hmap
      have hnil : paragraphs t = [] := List.map_eq_nil_iff.1 hmap
      rw [hnil] at hlen
      simp at hlen
      omega
  have hWne : ((paragraphs t).map fun q => (q.length : ℚ)).sum ≠ 0 := ne_of_gt hWpos
  have hcount : min n (max 1 (paragraphs t).length) = n := by rw [hlen]; omega
  have htake : (paragraphs t).take (min n (max 1 (paragraphs t).length)) = paragraphs t := by
    rw [hcount, ← hlen]
    exact List.take_length _
  have halloc : allocate total (paragraphs t) n =
      (paragraphs t).map fun p => total *
        ((p.length : ℚ) / ((paragraphs t).map fun q => (q.length : ℚ)).sum) := by
    simp only [allocate]
    rw [htake, if_neg hWne, List.map_map]
    rfl
  constructor
  · rw [halloc]
    apply List.map_congr_left
    intro p hp
    rw [mul_div_assoc]
  · rw [halloc, sum_map_alloc, div_self hWne, mul_one]

/-- Claim C1 witness: a 30-second narration over paragraphs of lengths 10
and 20 is allocated 10 and 20 seconds. -/
theorem C1_witness :
    allocate 30 (paragraphs "aaaaaaaaaa\n\nbbbbbbbbbbbbbbbbbbbb") 2 =
      (paragraphs "aaaaaaaaaa\n\nbbbbbbbbbbbbbbbbbbbb").map
        (fun p => 30 * (p.length : ℚ) /
          ((paragraphs "aaaaaaaaaa\n\nbbbbbbbbbbbbbbbbbbbb").map fun q => (q.length : ℚ)).sum) ∧
    (allocate 30 (paragraphs "aaaaaaaaaa\n\nbbbbbbbbbbbbbbbbbbbb") 2).sum = 30 :=
  C1_allocator_proportional 30 "aaaaaaaaaa\n\nbbbbbbbbbbbbbbbbbbbb" 2
    (by norm_num) (by decide) (by decide) (by decide)

/-- Claim C2 counterexample: for the all-zero-weight paragraph list of a
blank script, the allocator returns `[0]`, not the equal split `[30/1]` —
`sum(weights) or 1.0` only guards the division, it does not split
equally. -/
lemma allocate_blank_script : allocate 30 (paragraphs "") 1 = [0] := by
  have hp : paragraphs "" = [""] := by decide
  have hl : ("" : String).length = 0 := rfl
  rw [hp]
  norm_num [allocate, hl]

theorem C2_counterexample :
    allocate 30 (paragraphs "") 1 = [0] ∧
    ¬ (∀ d ∈ allocate 30 (paragraphs "") 1, d = 30 / 1) := by
  refine ⟨allocate_blank_script, ?_⟩
  intro hall
  have h0 := hall 0 (by rw [allocate_blank_script]; simp)
  norm_num at h0

/-- Claim C2 (amended): when every considered paragraph has character
length zero, every returned duration is `0` (the divisor falls back to
`1.0`, so each segment gets `total * 0 / 1 = 0`); the 0.1-second floor is
applied only later, at segment composition. -/
theorem C2_allocator_zero_weights (total : ℚ) (paras : List String) (cc : ℕ)
    (h : ∀ p ∈ paras, p.length = 0) :
    ∀ d ∈ allocate total paras cc, d = 0 := by
  intro d hd
  unfold allocate at hd
  obtain ⟨w, hw, rfl⟩ := List.mem_map.1 hd
  obtain ⟨p, hp, rfl⟩ := List.mem_map.1 hw
  rw [h p (List.mem_of_mem_take hp)]
  simp

/-- Claim C2 witness: the amended statement instantiated at the blank
script with one clip. -/
theorem C2_witness : allocate 30 (paragraphs "") 1 = [0] ∧ (0:ℚ) = 0 :=
  ⟨allocate_blank_script,
   C2_allocator_zero_weights 30 (paragraphs "") 1 (by decide) 0
     (by rw [allocate_blank_script]; simp)⟩

lemma mvOut_urls (env : PipelineEnv) (p t : String) (m : Option Meta) :
    (mvOut env p t m).urls =
      pexels_pick_multi env.search (auto_queries t m) (max 1 env.segments).toNat := rfl

lemma mvOut_clips (env : PipelineEnv) (p t : String) (m : Option Meta) :
    (mvOut env p t m).clips =
      (if (mvOut env p t m).urls.filter env.retrieve = [] then [Clip.color]
       else ((mvOut env p t m).urls.filter env.retrieve).map Clip.real) := rfl

lemma mvOut_composedDurs (env : PipelineEnv) (p t : String) (m : Option Meta) :
    (mvOut env p t m).composedDurs = (mvOut env p t m).segDurs.map safe_loop_duration := rfl

lemma count_color_iff (l : List String) :
    ((if l = [] then [Clip.color] else l.map Clip.real).count Clip.color = 1) ↔ l = [] := by
  by_cases h : l = []
  · rw [if_pos h]
    simp [h]
  · rw [if_neg h]
    constructor
    · intro hc
      have hnm : Clip.color ∉ l.map Clip.real := by simp [List.mem_map]
      rw [List.count_eq_zero.2 hnm] at hc
      exact absurd hc (by decide)
    · intro hl
      exact absurd hl h

/-- Claim C5: when the narration audio exists, `make_video` succeeds (an
output video is produced even with zero retrievable clips), and exactly
one synthetic solid-colour clip is used if and only if zero real clips
were retrieved (downloaded and opened successfully). -/
theorem C5_fallback_iff_no_real (env : PipelineEnv) (p t : String) (m : Option Meta)
    (h : env.audioExists p = true) :
    make_video env p t m = .ok (mvOut env p t m) ∧
    ((mvOut env p t m).clips.count Clip.color = 1 ↔
      (mvOut env p t m).urls.filter env.retrieve = []) := by
  refine ⟨by simp [make_video, h], ?_⟩
  rw [mvOut_clips]
  exact count_color_iff _

/-- Claim C5 witness: with an always-failing search API, zero clips are
retrieved, the fallback colour clip is used exactly once, and the run
still succeeds. -/
theorem C5_witness :
    make_video envOffline "a.mp3" "hello world" none =
      .ok (mvOut envOffline "a.mp3" "hello world" none) ∧
    ((mvOut envOffline "a.mp3" "hello world" none).clips.count Clip.color = 1 ↔
      (mvOut envOffline "a.mp3" "hello world" none).urls.filter envOffline.retrieve = []) :=
  C5_fallback_iff_no_real envOffline "a.mp3" "hello world" none rfl

/-- Claim C7: every composed segment duration of a successful
`make_video` run is at least the 0.1-second floor of `_safe_loop`, hence
strictly positive, including zero-weight paragraphs. -/
theorem C7_composed_durations_floored (env : PipelineEnv) (p t : String) (m : Option Meta)
    (r : MakeVideoOut) (h : make_video env p t m = .ok r) :
    ∀ d ∈ r.composedDurs, 1/10 ≤ d ∧ 0 < d := by
  have hr : r = mvOut env p t m := by
    by_cases ha : env.audioExists p = true
    · simp only [make_video, if_pos ha, Except.ok.injEq] at h
      exact h.symm
    · simp [make_video, ha] at h
  subst hr
  rw [mvOut_composedDurs]
  intro d hd
  obtain ⟨x, hx, rfl⟩ := List.mem_map.1 hd
  unfold safe_loop_duration
  by_cases hle : x ≤ 1/10
  · rw [if_pos hle]
    norm_num
  · rw [if_neg hle]
    push_neg at hle
    constructor
    · linarith
    · linarith

/-- Claim C7 witness: the blank script allocates a zero-weight segment
that is clamped up to exactly 0.1 seconds. -/
lemma envOffline_blank_composed :
    (mvOut envOffline "a.mp3" "" none).composedDurs = [1/10] := by
  rw [mvOut_composedDurs]
  have h1 : (mvOut envOffline "a.mp3" "" none).segDurs =
      allocate (max (1/10) 30) (paragraphs "") 1 := rfl
  have hp : paragraphs "" = [""] := by decide
  have hl : ("" : String).length = 0 := rfl
  have htot : (max (1/10 : ℚ) 30) = 30 := by norm_num
  rw [h1, hp, htot]
  norm_num [allocate, hl, safe_loop_duration]

theorem C7_witness : (1/10 : ℚ) ≤ 1/10 ∧ (0:ℚ) < 1/10 :=
  C7_composed_durations_floored envOffline "a.mp3" "" none
    (mvOut envOffline "a.mp3" "" none) rfl (1/10)
    (by rw [envOffline_blank_composed]; simp)

/-! Helper lemmas for the clip fetcher. -/

lemma pick_vertical_urls_go_length (need : ℕ) :
    ∀ (vids : List Video) (urls : List String), urls.length < need →
      (pick_vertical_urls_go need urls vids).length ≤ need := by
  intro vids
  induction vids with
  | nil => intro urls h; exact h.le
  | cons v vs ih =>
    intro urls h
    rw [pick_vertical_urls_go]
    rcases hf : (sortStable fileLe v.video_files).find? eligibleFile with _ | f
    · simp only
      by_cases hge : need ≤ urls.length
      · rw [if_pos hge]; exact h.le
      · rw [if_neg hge]; exact ih urls h
    · simp only
      by_cases hge : need ≤ (urls ++ [f.link]).length
      · rw [if_pos hge]
        simp only [List.length_append, List.length_singleton]
        omega
      · rw [if_neg hge]
        apply ih
        simp only [List.length_append, List.length_singleton] at hge ⊢
        omega

lemma pick_multi_go_length (search : String → ℕ → SearchResp) (pp need : ℕ) :
    ∀ (qs c : List String), c.length < need →
      (pick_multi_go search pp need c qs).length ≤ need := by
  intro qs
  induction qs with
  | nil => intro c h; exact h.le
  | cons q qs ih =>
    intro c h
    rw [pick_multi_go]
    by_cases hok : (search q pp).ok
    · rw [if_pos hok]
      have hpick : (pick_vertical_urls (search q pp).videos (need - c.length)).length ≤
          need - c.length :=
        pick_vertical_urls_go_length (need - c.length) _ [] (by simp; omega)
      have hc'len : (c ++ pick_vertical_urls (search q pp).videos (need - c.length)).length ≤
          need := by
        simp only [List.length_append]
        omega
      by_cases hge : need ≤
          (c ++ pick_vertical_urls (search q pp).videos (need - c.length)).length
      · rw [if_pos hge]; exact hc'len
      · rw [if_neg hge]
        exact ih _ (by omega)
    · rw [if_neg hok]; exact ih c h

lemma pick_multi_go_filter (search : String → ℕ → SearchResp) (pp need : ℕ) :
    ∀ (qs c : List String),
      pick_multi_go search pp need c qs =
        pick_multi_go search pp need c (qs.filter fun q => (search q pp).ok) := by
  intro qs
  induction qs with
  | nil => intro c; rfl
  | cons q qs ih =>
    intro c
    by_cases hok : (search q pp).ok
    · rw [show List.filter (fun q => (search q pp).ok) (q :: qs) =
            q :: List.filter (fun q => (search q pp).ok) qs from
          List.filter_cons_of_pos hok,
        pick_multi_go, if_pos hok, pick_multi_go, if_pos hok]
      by_cases hge : need ≤
          (c ++ pick_vertical_urls (search q pp).videos (need - c.length)).length
      · rw [if_pos hge, if_pos hge]
      · rw [if_neg hge, if_neg hge]
        exact ih _
    · rw [show List.filter (fun q => (search q pp).ok) (q :: qs) =
            List.filter (fun q => (search q pp).ok) qs from
          List.filter_cons_of_neg (by simp [hok]),
        pick_multi_go, if_neg hok]
      exact ih c

/-- Claim C6: for every search oracle (covering failures: `ok = false`
models non-success status, timeout or malformed response) and every
`need ≥ 1`, the multi-query fetcher returns at most `need` URLs, and
failed queries are skipped — removing them from the query list does not
change the result (the hardcoded safety queries run afterwards as part of
`pexels_pick_multi` itself). -/
theorem C6_fetcher_bounded_and_skips (search : String → ℕ → SearchResp)
    (queries : List String) (need : ℕ) (h : 1 ≤ need) :
    (pexels_pick_multi search queries need).length ≤ need ∧
    pexels_pick_multi search queries need =
      pexels_pick_multi search
        (queries.filter fun q => (search q (max (need * 4) 12)).ok) need := by
  constructor
  · unfold pexels_pick_multi
    have hmain : (pick_multi_go search (max (need * 4) 12) need [] queries).length ≤ need :=
      pick_multi_go_length search _ need queries [] (by simpa using h)
    by_cases hlt : (pick_multi_go search (max (need * 4) 12) need [] queries).length < need
    · rw [if_pos hlt]
      exact pick_multi_go_length search _ need _ _ hlt
    · rw [if_neg hlt]; exact hmain
  · unfold pexels_pick_multi
    rw [← pick_multi_go_filter]

/-- Claim C6 witness: with an always-failing search oracle and one query,
the fetcher returns at most three URLs and ignoring the failed query
changes nothing. -/
theorem C6_witness :
    (pexels_pick_multi (fun _ _ => { ok := false, status := 0, videos := [] }) ["x"] 3).length
      ≤ 3 ∧
    pexels_pick_multi (fun _ _ => { ok := false, status := 0, videos := [] }) ["x"] 3 =
      pexels_pick_multi (fun _ _ => { ok := false, status := 0, videos := [] })
        (["x"].filter fun q =>
          ((fun (_ : String) (_ : ℕ) => SearchResp.mk false 0 []) q (max (3 * 4) 12)).ok) 3 :=
  C6_fetcher_bounded_and_skips (fun _ _ => { ok := false, status := 0, videos := [] })
    ["x"] 3 (by decide)

/-! Helper lemma for the batch loop. -/

lemma runPipelineGo_no_limit (env : PipelineEnv) (done : String → Bool) :
    ∀ (scripts : List ScriptData) (produced : ℕ),
      runPipelineGo env done 0 produced scripts = scripts.map (outcomeOf env done) := by
  intro scripts
  induction scripts with
  | nil => intro produced; rfl
  | cons s rest ih =>
    intro produced
    rw [runPipelineGo]
    rcases ho : outcomeOf env done s with _ | _ | r | e <;>
      simp [ho, ih, List.map_cons]

/-- Claim C9: a missing narration audio file makes `make_video` fail with
a file-not-found error before any clip fetching (the error is the same
whatever the search and download oracles do), and the batch loop of
`run_pipeline` maps every script to its own outcome — a failed script is
reported and the remaining scripts are still processed. -/
theorem C9_missing_audio_batch_continues :
    (∀ (env : PipelineEnv) (p t : String) (m : Option Meta), env.audioExists p = false →
      make_video env p t m = .error ("Audio not found: " ++ p)) ∧
    (∀ (env : PipelineEnv) (done : String → Bool) (scripts : List ScriptData),
      run_pipeline env done 0 scripts = scripts.map (outcomeOf env done)) := by
  constructor
  · intro env p t m h
    simp [make_video, h]
  · intro env done scripts
    exact runPipelineGo_no_limit env done scripts 0

/-- Claim C9 witness: the missing-audio error, instantiated. -/
theorem C9_witness :
    make_video envNoAudio "output/audio/s1.mp3" "hello" none =
      .error ("Audio not found: " ++ "output/audio/s1.mp3") :=
  C9_missing_audio_batch_continues.1 envNoAudio "output/audio/s1.mp3" "hello" none rfl

/-! Helper lemma for the caption generator. -/

lemma build_captions_go_spec :
    ∀ (l : List (String × ℚ)) (t : ℚ),
      ((build_captions_go t l).map Caption.stop =
        cumSums t (l.map fun pd => max pd.2 (1/2))) ∧
      (build_captions_go t l).Chain' (fun a b => a.stop = b.start) ∧
      (∀ c ∈ build_captions_go t l, c.start < c.stop) ∧
      (build_captions_go t l).Chain' (fun a b => a.start < b.start) ∧
      (∀ c, (build_captions_go t l).head? = some c → c.start = t) := by
  intro l
  induction l with
  | nil =>
    intro t
    refine ⟨rfl, by simp [build_captions_go], by simp [build_captions_go],
      by simp [build_captions_go], ?_⟩
    intro c hc
    simp [build_captions_go] at hc
  | cons pd rest ih =>
    intro t
    obtain ⟨p, d⟩ := pd
    obtain ⟨ih1, ih2, ih3, ih4, ih5⟩ := ih (t + max d (1/2))
    have hlt : t < t + max d (1/2) := by
      have : (0:ℚ) < max d (1/2) := lt_of_lt_of_le (by norm_num) (le_max_right d (1/2))
      linarith
    refine ⟨?_, ?_, ?_, ?_, ?_⟩
    · simp only [build_captions_go, List.map_cons, cumSums, ih1]
    · rw [build_captions_go]
      refine List.chain'_cons'.2 ⟨?_, ih2⟩
      intro c hc
      rw [ih5 c hc]
    · intro c hc
      rw [build_captions_go] at hc
      rcases List.mem_cons.1 hc with rfl | hc
      · exact hlt
      · exact ih3 c hc
    · rw [build_captions_go]
      refine List.chain'_cons'.2 ⟨?_, ih4⟩
      intro c hc
      rw [ih5 c hc]
      exact hlt
    · intro c hc
      rw [build_captions_go] at hc
      simp only [List.head?_cons, Option.some.injEq] at hc
      rw [← hc]

/-- Claim C10 (spec-modelled, `build_captions` is absent from `src/`):
caption entries are contiguous and non-overlapping (each entry starts
where the previous one ends), each entry's end is the previous end plus
`max(segment duration, 0.5s)` (expressed as running sums of the floored
durations from 0), every entry has positive extent, and starts strictly
increase. -/
theorem C10_captions_monotone (paras : List String) (segDurs : List ℚ) :
    ((build_captions paras segDurs).map Caption.stop =
      cumSums 0 ((paras.zip segDurs).map fun pd => max pd.2 (1/2))) ∧
    (build_captions paras segDurs).Chain' (fun a b => a.stop = b.start) ∧
    (∀ c ∈ build_captions paras segDurs, c.start < c.stop) ∧
    (build_captions paras segDurs).Chain' (fun a b => a.start < b.start) := by
  obtain ⟨h1, h2, h3, h4, -⟩ := build_captions_go_spec (paras.zip segDurs) 0
  exact ⟨h1, h2, h3, h4⟩

/-- Claim C10 witness: a caption of positive extent for a concrete
paragraph/duration pair. -/
theorem C10_witness :
    ({ start := 0, stop := 0 + max 2 (1/2), text := "a" } : Caption).start <
      ({ start := 0, stop := 0 + max 2 (1/2), text := "a" } : Caption).stop :=
  (C10_captions_monotone ["a"] [2]).2.2.1
    { start := 0, stop := 0 + max 2 (1/2), text := "a" } (by simp [build_captions, build_captions_go])

end ZyraTV
